import Mathlib

/-!
# Verification of pyfair's `FairBaseCurve._input_check` and `FairBetaPert`

Shallow embedding of the two source files of the repository:

* `pyfair/report/base_curve.py` — `FairBaseCurve._input_check`, which
  normalizes a value (a single model, a meta-model, or an iterable of
  either) into a name-keyed mapping, raising `FairException` otherwise.
* `pyfair/utility/beta_pert.py` — `FairBetaPert`, which validates
  `low < high` and derives `mean`, `stdev`, `alpha`, `beta` in sequence.

Python objects seen by `_input_check` are modelled by `PyValue`: every
value carries its runtime class name (`__class__.__name__`) and the string
its `get_name()` method would return; a value either has no `__iter__`
(`atom`) or is a sized iterable of further values (`iterable`).  Python
dicts (string keys, insertion ordered, later assignment to an existing key
overwrites in place) are modelled by association lists with `dictInsert`.
Raising `FairException` is modelled by `Except String`; numeric arithmetic
is modelled over `ℚ`.
-/

/-- A Python value as observed by `_input_check`: its `__class__.__name__`,
its `get_name()` result, and — when it has `__iter__` — its elements. -/
inductive PyValue where
  | atom (className : String) (name : String)
  | iterable (className : String) (name : String) (elems : List PyValue)
deriving Repr

/-- `value.__class__.__name__`. -/
def PyValue.className : PyValue → String
  | .atom c _ => c
  | .iterable c _ _ => c

/-- `value.get_name()`. -/
def PyValue.get_name : PyValue → String
  | .atom _ n => n
  | .iterable _ n _ => n

/-- The membership test `value.__class__.__name__ in ['FairModel', 'FairMetaModel']`. -/
def isModelClassName (s : String) : Bool :=
  s = "FairModel" || s = "FairMetaModel"

/-- A Python dict with string keys, as an insertion-ordered association list. -/
abbrev PyDict := List (String × PyValue)

/-- `rv[k] = v` on a Python dict: an existing key keeps its insertion
position and gets the new value; a fresh key is appended at the end. -/
def dictInsert : PyDict → String → PyValue → PyDict
  | [], k, v => [(k, v)]
  | p :: rest, k, v =>
    if p.1 = k then (k, v) :: rest else p :: dictInsert rest k v

/-- `rv[k]` lookup on a Python dict (`none` models `KeyError`). -/
def dictGet : PyDict → String → Option PyValue
  | [], _ => none
  | p :: rest, k => if p.1 = k then some p.2 else dictGet rest k

/-- The `for proported_model in value:` loop of `_input_check`, carrying the
accumulated dict `rv`: a member with a recognized class name is inserted
under its `get_name()`; any other member raises, discarding `rv`. -/
def processMembers : List PyValue → PyDict → Except String PyDict
  | [], rv => .ok rv
  | m :: rest, rv =>
    if isModelClassName m.className then
      processMembers rest (dictInsert rv m.get_name m)
    else
      .error "Iterable member is not a FairModel or FairMetaModel"

/-- `FairBaseCurve._input_check(value)`: a value whose class name is exactly
`FairModel` or `FairMetaModel` is wrapped alone into a one-entry dict; a
non-iterable raises; an empty iterable raises; otherwise the members are
processed one by one. -/
def input_check (value : PyValue) : Except String PyDict :=
  if isModelClassName value.className then
    .ok [(value.get_name, value)]
  else
    match value with
    | .atom _ _ =>
      .error "Input is not a FairModel, FairMetaModel, or an iterable."
    | .iterable _ _ elems =>
      if elems.length = 0 then
        .error "Input is an empty iterable."
      else
        processMembers elems []

/-!
## `FairBetaPert` (`pyfair/utility/beta_pert.py`)
-/

/-- The fields a `FairBetaPert` instance holds after `__init__` succeeds
(the scipy `_beta_curve` object is external and modelled separately). -/
structure FairBetaPert where
  low : ℚ
  mode : ℚ
  high : ℚ
  gamma : ℚ
  range : ℚ
  mean : ℚ
  stdev : ℚ
  alpha : ℚ
  beta : ℚ
deriving Repr, DecidableEq

/-- `FairBetaPert._generate_mean`. -/
def generate_mean (low mode high gamma : ℚ) : ℚ :=
  (low + gamma * mode + high) / (gamma + 2)

/-- `FairBetaPert._generate_stdev`. -/
def generate_stdev (low high gamma : ℚ) : ℚ :=
  (high - low) / (gamma + 2)

/-- `FairBetaPert._generate_alpha`, reading the already-computed `mean`
and `stdev` fields. -/
def generate_alpha (low high mean stdev : ℚ) : ℚ :=
  let group_1 := (mean - low) / (high - low)
  let group_2 := (mean - low) * (high - mean) / (stdev ^ 2)
  group_1 * (group_2 - 1)

/-- `FairBetaPert._generate_beta`, reading the already-computed `mean` and
`alpha` fields. -/
def generate_beta (low high mean alpha : ℚ) : ℚ :=
  let beta_numerator := alpha * (high - mean)
  let beta_denominator := mean - low
  beta_numerator / beta_denominator

/-- `FairBetaPert.__init__(low, mode, high, gamma=4)`: stores the inputs and
`range = high - low`, runs `_run_range_check` (raising when `range <= 0`),
then computes `_generate_mean`, `_generate_stdev`, `_generate_alpha`,
`_generate_beta` in that order. -/
def mkFairBetaPert (low mode high : ℚ) (gamma : ℚ) : Except String FairBetaPert :=
  let range := high - low
  if range ≤ 0 then
    .error "\"low\" value must be less than \"high\" value."
  else
    let mean := generate_mean low mode high gamma
    let stdev := generate_stdev low high gamma
    let alpha := generate_alpha low high mean stdev
    let beta := generate_beta low high mean alpha
    .ok ⟨low, mode, high, gamma, range, mean, stdev, alpha, beta⟩

/-- Modelled from the spec: `scipy.stats.beta(alpha, beta, loc, scale)` and
its `rvs(count)` sampler are external library code absent from the source
tree.  Per the spec, the constructed distribution is "a standard
two-parameter Beta distribution on `[0,1]` linearly remapped onto
`[low, high]`", i.e. each draw is `loc + scale * x` for a unit Beta sample
`x ∈ [0,1]`; the pseudo-random unit samples are supplied as the list
`draws`, one per requested variate. -/
def random_variates (p : FairBetaPert) (draws : List ℚ) : List ℚ :=
  draws.map (fun x => p.low + p.range * x)

/-!
## Helper lemmas about the dict model
-/

/-- The keys of a dict, in insertion order. -/
def dictKeys (d : PyDict) : List String := d.map Prod.fst

theorem option_or_assoc {α : Type} (x y z : Option α) :
    (x.or y).or z = x.or (y.or z) := by
  cases x <;> rfl

theorem option_or_none {α : Type} (x : Option α) : x.or none = x := by
  cases x <;> rfl

theorem getLast?_cons_or {α : Type} (a : α) (l : List α) :
    (a :: l).getLast? = l.getLast?.or (some a) := by
  induction l generalizing a with
  | nil => rfl
  | cons b l' ih =>
    rw [List.getLast?_cons_cons, ih b, option_or_assoc]
    rfl

theorem dictGet_dictInsert_self (d : PyDict) (k : String) (v : PyValue) :
    dictGet (dictInsert d k v) k = some v := by
  induction d with
  | nil => simp [dictInsert, dictGet]
  | cons p rest ih =>
    by_cases h : p.1 = k
    · simp [dictInsert, dictGet, h]
    · simp only [dictInsert, if_neg h, dictGet, ih, if_neg h]

theorem dictGet_dictInsert_ne (d : PyDict) (k k' : String) (v : PyValue)
    (h : k' ≠ k) : dictGet (dictInsert d k v) k' = dictGet d k' := by
  induction d with
  | nil => simp [dictInsert, dictGet, Ne.symm h]
  | cons p rest ih =>
    by_cases hp : p.1 = k
    · subst hp
      simp [dictInsert, dictGet, Ne.symm h]
    · simp only [dictInsert, if_neg hp, dictGet, ih]

theorem dictKeys_dictInsert (d : PyDict) (k : String) (v : PyValue) :
    dictKeys (dictInsert d k v) =
      if k ∈ dictKeys d then dictKeys d else dictKeys d ++ [k] := by
  induction d with
  | nil => simp [dictInsert, dictKeys]
  | cons p rest ih =>
    by_cases h : p.1 = k
    · simp [dictInsert, dictKeys, h]
    · by_cases hm : k ∈ dictKeys rest
      · simp [dictInsert, dictKeys, h, hm, Ne.symm h, ih] at *
        simp [dictKeys, ih, hm]
      · simp only [dictInsert, if_neg h, dictKeys, List.map_cons] at *
        rw [ih]
        simp [hm, Ne.symm h]

theorem nodup_dictKeys_dictInsert (d : PyDict) (k : String) (v : PyValue)
    (h : (dictKeys d).Nodup) : (dictKeys (dictInsert d k v)).Nodup := by
  rw [dictKeys_dictInsert]
  by_cases hm : k ∈ dictKeys d
  · simpa [hm] using h
  · simp [hm, List.nodup_append, h]

theorem length_dictInsert (d : PyDict) (k : String) (v : PyValue) :
    (dictInsert d k v).length =
      if k ∈ dictKeys d then d.length else d.length + 1 := by
  have h1 : (dictInsert d k v).length = (dictKeys (dictInsert d k v)).length :=
    (List.length_map _ _).symm
  have h2 : d.length = (dictKeys d).length := (List.length_map _ _).symm
  rw [h1, dictKeys_dictInsert]
  by_cases hm : k ∈ dictKeys d <;> simp [hm, h2]

theorem dictInsert_of_fresh (d : PyDict) (k : String) (v : PyValue)
    (h : k ∉ dictKeys d) : dictInsert d k v = d ++ [(k, v)] := by
  induction d with
  | nil => rfl
  | cons p rest ih =>
    have hp : p.1 ≠ k := by
      intro hh
      exact h (by simp [dictKeys, hh])
    simp only [dictInsert, if_neg hp, List.cons_append]
    rw [ih (fun hh => h (by simp [dictKeys] at hh ⊢; exact Or.inr hh))]

/-- The accumulation performed by the `for` loop of `_input_check` over a
run of accepted members. -/
def insertAll (acc : PyDict) (elems : List PyValue) : PyDict :=
  elems.foldl (fun d m => dictInsert d m.get_name m) acc

theorem processMembers_ok (elems : List PyValue) (acc : PyDict)
    (hgood : ∀ m ∈ elems, isModelClassName m.className = true) :
    processMembers elems acc = .ok (insertAll acc elems) := by
  induction elems generalizing acc with
  | nil => rfl
  | cons m rest ih =>
    simp only [processMembers, insertAll, List.foldl_cons]
    rw [if_pos (hgood m (List.mem_cons_self m rest))]
    exact ih _ (fun x hx => hgood x (List.mem_cons_of_mem m hx))

theorem processMembers_error (elems : List PyValue) (acc : PyDict)
    (msg : String) (h : processMembers elems acc = .error msg) :
    msg = "Iterable member is not a FairModel or FairMetaModel" := by
  induction elems generalizing acc with
  | nil => simp [processMembers] at h
  | cons m rest ih =>
    simp only [processMembers] at h
    by_cases hm : isModelClassName m.className = true
    · rw [if_pos hm] at h
      exact ih _ h
    · rw [if_neg hm] at h
      exact (Except.error.injEq _ _ ▸ congrArg id h : _) ▸ rfl

theorem dictGet_insertAll (elems : List PyValue) (acc : PyDict) (k : String) :
    dictGet (insertAll acc elems) k =
      ((elems.filter (fun m => m.get_name = k)).getLast?).or (dictGet acc k) := by
  induction elems generalizing acc with
  | nil => simp [insertAll, List.filter_nil]
  | cons m rest ih =>
    by_cases hk : m.get_name = k
    · have h1 : insertAll acc (m :: rest) =
          insertAll (dictInsert acc m.get_name m) rest := rfl
      rw [h1, ih, List.filter_cons_of_pos (by simp [hk]), getLast?_cons_or,
        option_or_assoc]
      subst hk
      rw [dictGet_dictInsert_self]
      rfl
    · have h1 : insertAll acc (m :: rest) =
          insertAll (dictInsert acc m.get_name m) rest := rfl
      rw [h1, ih, List.filter_cons_of_neg (by simp [hk]),
        dictGet_dictInsert_ne _ _ _ _ (Ne.symm hk)]

theorem dictKeys_insertAll_subset (elems : List PyValue) (acc : PyDict) :
    ∀ x ∈ dictKeys (insertAll acc elems),
      x ∈ dictKeys acc ∨ x ∈ elems.map PyValue.get_name := by
  induction elems generalizing acc with
  | nil => exact fun x hx => Or.inl hx
  | cons m rest ih =>
    intro x hx
    have h1 : insertAll acc (m :: rest) =
        insertAll (dictInsert acc m.get_name m) rest := rfl
    rw [h1] at hx
    rcases ih (dictInsert acc m.get_name m) x hx with h | h
    · rw [dictKeys_dictInsert] at h
      by_cases hm : m.get_name ∈ dictKeys acc
      · rw [if_pos hm] at h
        exact Or.inl h
      · rw [if_neg hm] at h
        rcases List.mem_append.mp h with h' | h'
        · exact Or.inl h'
        · right
          simp at h'
          simp [h']
    · right
      simp [h]

theorem nodup_dictKeys_insertAll (elems : List PyValue) (acc : PyDict)
    (h : (dictKeys acc).Nodup) : (dictKeys (insertAll acc elems)).Nodup := by
  induction elems generalizing acc with
  | nil => exact h
  | cons m rest ih =>
    exact ih (dictInsert acc m.get_name m) (nodup_dictKeys_dictInsert _ _ _ h)

theorem insertAll_of_nodup (elems : List PyValue) (acc : PyDict)
    (hfresh : ∀ m ∈ elems, m.get_name ∉ dictKeys acc)
    (hnodup : (elems.map PyValue.get_name).Nodup) :
    insertAll acc elems = acc ++ elems.map (fun m => (m.get_name, m)) := by
  induction elems generalizing acc with
  | nil => simp [insertAll]
  | cons m rest ih =>
    have h1 : insertAll acc (m :: rest) =
        insertAll (dictInsert acc m.get_name m) rest := rfl
    rw [h1, dictInsert_of_fresh _ _ _ (hfresh m (List.mem_cons_self m rest))]
    rw [ih (acc ++ [(m.get_name, m)]) ?fresh ?nodup]
    · simp
    case fresh =>
      intro x hx hmem
      simp [dictKeys] at hmem
      rcases hmem with hmem | hmem
      · exact hfresh x (List.mem_cons_of_mem m hx) (by
          simpa [dictKeys] using hmem)
      · have : m.get_name ∉ rest.map PyValue.get_name :=
          (List.nodup_cons.mp hnodup).1
        exact this (hmem ▸ List.mem_map_of_mem PyValue.get_name hx)
    case nodup => exact (List.nodup_cons.mp hnodup).2

theorem processMembers_bad (good : List PyValue) (bad : PyValue)
    (rest : List PyValue) (acc : PyDict)
    (hgood : ∀ m ∈ good, isModelClassName m.className = true)
    (hbad : isModelClassName bad.className = false) :
    processMembers (good ++ bad :: rest) acc =
      .error "Iterable member is not a FairModel or FairMetaModel" := by
  induction good generalizing acc with
  | nil => simp [processMembers, hbad]
  | cons m ms ih =>
    simp only [List.cons_append, processMembers,
      if_pos (hgood m (List.mem_cons_self m ms))]
    exact ih _ (fun x hx => hgood x (List.mem_cons_of_mem m hx))

theorem input_check_iterable_unfold (c n : String) (elems : List PyValue)
    (hc : isModelClassName c = false) :
    input_check (.iterable c n elems) =
      if elems.length = 0 then .error "Input is an empty iterable."
      else processMembers elems [] := by
  simp [input_check, PyValue.className, hc]

/-!
## Claims about `FairBaseCurve._input_check`
-/

/-- C2: a value whose runtime class name is exactly `FairModel` or
`FairMetaModel` is returned immediately as the one-entry mapping from its
`get_name()` to the value itself, with no error — and this path is taken
before any iterability or length check (the theorem holds for iterable
values too, including empty ones). -/
theorem input_check_single_model (value : PyValue)
    (h : value.className = "FairModel" ∨ value.className = "FairMetaModel") :
    input_check value = .ok [(value.get_name, value)] := by
  have hb : isModelClassName value.className = true := by
    rcases h with h | h <;> simp [isModelClassName, h]
  cases value with
  | atom c n => simp [input_check, hb]
  | iterable c n elems => simp [input_check, hb]

/-- Witness for C2 at a concrete input: an empty iterable whose class name
is `FairModel` takes the single-model path (no empty-iterable error). -/
theorem input_check_single_model_witness :
    ((PyValue.iterable "FairModel" "X" []).className = "FairModel" ∨
      (PyValue.iterable "FairModel" "X" []).className = "FairMetaModel") ∧
    input_check (PyValue.iterable "FairModel" "X" []) =
      .ok [("X", PyValue.iterable "FairModel" "X" [])] :=
  ⟨Or.inl rfl, input_check_single_model _ (Or.inl rfl)⟩

/-- C3: a non-empty iterable (itself not model-tagged) all of whose members
are model-tagged, with pairwise-distinct `get_name()` values, validates to
the mapping of each name to its member, in the order supplied. -/
theorem input_check_collection (c n : String) (elems : List PyValue)
    (hc : isModelClassName c = false)
    (hne : elems ≠ [])
    (hgood : ∀ m ∈ elems, isModelClassName m.className = true)
    (hnodup : (elems.map PyValue.get_name).Nodup) :
    input_check (.iterable c n elems) =
      .ok (elems.map (fun m => (m.get_name, m))) := by
  rw [input_check_iterable_unfold c n elems hc,
    if_neg (by simpa using List.length_pos.mpr hne |>.ne'),
    processMembers_ok elems [] hgood,
    insertAll_of_nodup elems [] (by simp [dictKeys]) hnodup]
  rfl

/-- Witness for C3: three `FairModel`/`FairMetaModel` members named
`A`, `B`, `C` supplied in a plain list. -/
theorem input_check_collection_witness :
    input_check (PyValue.iterable "list" ""
        [PyValue.atom "FairModel" "A", PyValue.atom "FairMetaModel" "B",
          PyValue.atom "FairModel" "C"]) =
      .ok [("A", PyValue.atom "FairModel" "A"),
        ("B", PyValue.atom "FairMetaModel" "B"),
        ("C", PyValue.atom "FairModel" "C")] := by
  rw [input_check_collection "list" ""
    [PyValue.atom "FairModel" "A", PyValue.atom "FairMetaModel" "B",
      PyValue.atom "FairModel" "C"]
    (by simp [isModelClassName]) (by simp)
    (by intro m hm; fin_cases hm <;> simp [isModelClassName, PyValue.className])
    (by simp [PyValue.get_name])]
  rfl

/-- C4: when the iterable contains a member whose class name is not
`FairModel`/`FairMetaModel`, validation fails at the first such member with
the exact message, whatever follows it, and no partial mapping is
returned. -/
theorem input_check_bad_member (c n : String) (good : List PyValue)
    (bad : PyValue) (rest : List PyValue)
    (hc : isModelClassName c = false)
    (hgood : ∀ m ∈ good, isModelClassName m.className = true)
    (hbad : isModelClassName bad.className = false) :
    input_check (.iterable c n (good ++ bad :: rest)) =
      .error "Iterable member is not a FairModel or FairMetaModel" := by
  rw [input_check_iterable_unfold c n _ hc, if_neg (by simp)]
  exact processMembers_bad good bad rest [] hgood hbad

/-- C6: every failure of `_input_check` carries one of the three enumerated
messages; no other error kind is produced (the operation is a pure function
of its input, which the embedding exhibits by construction). -/
theorem input_check_error_messages (value : PyValue) (msg : String)
    (h : input_check value = .error msg) :
    msg = "Input is not a FairModel, FairMetaModel, or an iterable." ∨
    msg = "Input is an empty iterable." ∨
    msg = "Iterable member is not a FairModel or FairMetaModel" := by
  cases value with
  | atom c n =>
    by_cases hb : isModelClassName c = true
    · simp [input_check, PyValue.className, hb] at h
    · simp [input_check, PyValue.className, hb] at h
      exact Or.inl h.symm
  | iterable c n elems =>
    by_cases hb : isModelClassName c = true
    · simp [input_check, PyValue.className, hb] at h
    · rw [input_check_iterable_unfold c n elems (by simpa using hb)] at h
      by_cases hl : elems.length = 0
      · rw [if_pos hl] at h
        simp at h
        exact Or.inr (Or.inl h.symm)
      · rw [if_neg hl] at h
        exact Or.inr (Or.inr (processMembers_error elems [] msg h))

/-- Witness for C6 at a concrete failing input (a plain integer). -/
theorem input_check_error_messages_witness :
    input_check (PyValue.atom "int" "42") =
      .error "Input is not a FairModel, FairMetaModel, or an iterable." ∧
    ("Input is not a FairModel, FairMetaModel, or an iterable." =
        "Input is not a FairModel, FairMetaModel, or an iterable." ∨
      "Input is not a FairModel, FairMetaModel, or an iterable." =
        "Input is an empty iterable." ∨
      "Input is not a FairModel, FairMetaModel, or an iterable." =
        "Iterable member is not a FairModel or FairMetaModel") :=
  ⟨rfl, input_check_error_messages (PyValue.atom "int" "42") _ rfl⟩

/-- C9: duplicate `get_name()` values among accepted members do not fail:
validation succeeds, the mapping has strictly fewer entries than the
iterable has members, and every name is mapped to the last member supplied
with that name (the later member silently overwrites the earlier). -/
theorem input_check_duplicate_names (c n : String) (elems : List PyValue)
    (hc : isModelClassName c = false)
    (hgood : ∀ m ∈ elems, isModelClassName m.className = true)
    (hdup : ¬ (elems.map PyValue.get_name).Nodup) :
    ∃ d, input_check (.iterable c n elems) = .ok d ∧
      d.length < elems.length ∧
      ∀ k, dictGet d k =
        (elems.filter (fun m => m.get_name = k)).getLast? := by
  have hne : ¬ elems.length = 0 := by
    intro h0
    exact hdup (by simp [List.length_eq_zero.mp h0])
  rw [input_check_iterable_unfold c n elems hc, if_neg hne,
    processMembers_ok elems [] hgood]
  refine ⟨insertAll [] elems, rfl, ?_, ?_⟩
  · have hkeysnodup : (dictKeys (insertAll [] elems)).Nodup :=
      nodup_dictKeys_insertAll elems [] (by simp [dictKeys])
    have hsub : dictKeys (insertAll [] elems) ⊆
        (elems.map PyValue.get_name).dedup := by
      intro x hx
      rcases dictKeys_insertAll_subset elems [] x hx with h | h
      · simp [dictKeys] at h
      · exact List.mem_dedup.mpr h
    have h1 : (dictKeys (insertAll [] elems)).length ≤
        (elems.map PyValue.get_name).dedup.length :=
      (hkeysnodup.subperm hsub).length_le
    have hsl := List.dedup_sublist (elems.map PyValue.get_name)
    have h2 : (elems.map PyValue.get_name).dedup.length <
        (elems.map PyValue.get_name).length := by
      rcases lt_or_eq_of_le hsl.length_le with h | h
      · exact h
      · exact absurd (hsl.eq_of_length h ▸
          List.nodup_dedup (elems.map PyValue.get_name)) hdup
    have hlen : (insertAll [] elems).length =
        (dictKeys (insertAll [] elems)).length := (List.length_map _ _).symm
    have hlen2 : (elems.map PyValue.get_name).length = elems.length :=
      List.length_map _ _
    omega
  · intro k
    rw [dictGet_insertAll]
    simp [dictGet, option_or_none]

/-- Witness for C9: two `FairModel`-tagged members both named `A`; the
resulting one-entry mapping holds the second. -/
theorem input_check_duplicate_names_witness :
    isModelClassName "list" = false ∧
    (∀ m ∈ [PyValue.atom "FairModel" "A", PyValue.atom "FairMetaModel" "A"],
      isModelClassName m.className = true) ∧
    ¬ (([PyValue.atom "FairModel" "A",
        PyValue.atom "FairMetaModel" "A"].map PyValue.get_name)).Nodup ∧
    ∃ d, input_check (.iterable "list" ""
        [PyValue.atom "FairModel" "A", PyValue.atom "FairMetaModel" "A"]) =
          .ok d ∧
      d.length < 2 ∧
      ∀ k, dictGet d k =
        ([PyValue.atom "FairModel" "A",
          PyValue.atom "FairMetaModel" "A"].filter
            (fun m => m.get_name = k)).getLast? :=
  ⟨rfl,
    by intro m hm; fin_cases hm <;> rfl,
    by simp [PyValue.get_name],
    input_check_duplicate_names "list" "" _ rfl
      (by intro m hm; fin_cases hm <;> rfl)
      (by simp [PyValue.get_name])⟩

/-- Witness for C4: a list holding one `FairModel` and one plain string. -/
theorem input_check_bad_member_witness :
    input_check (PyValue.iterable "list" ""
        [PyValue.atom "FairModel" "A", PyValue.atom "str" "oops"]) =
      .error "Iterable member is not a FairModel or FairMetaModel" :=
  input_check_bad_member "list" "" [PyValue.atom "FairModel" "A"]
    (PyValue.atom "str" "oops") [] rfl
    (by intro m hm; fin_cases hm; rfl) rfl

/-!
## Claims about `FairBetaPert`
-/

theorem mkFairBetaPert_of_lt (low mode high gamma : ℚ) (h : low < high) :
    mkFairBetaPert low mode high gamma =
      .ok ⟨low, mode, high, gamma, high - low,
        generate_mean low mode high gamma,
        generate_stdev low high gamma,
        generate_alpha low high (generate_mean low mode high gamma)
          (generate_stdev low high gamma),
        generate_beta low high (generate_mean low mode high gamma)
          (generate_alpha low high (generate_mean low mode high gamma)
            (generate_stdev low high gamma))⟩ := by
  simp only [mkFairBetaPert]
  rw [if_neg (not_le.mpr (by linarith : (0:ℚ) < high - low))]

/-- C1: with `low < high`, construction succeeds and the derived statistics
equal exactly the four formulas, each expressed in terms of the previously
computed values. -/
theorem betaPert_derived_statistics (low mode high gamma : ℚ)
    (h : low < high) :
    ∃ p : FairBetaPert, mkFairBetaPert low mode high gamma = .ok p ∧
      p.mean = (low + gamma * mode + high) / (gamma + 2) ∧
      p.stdev = (high - low) / (gamma + 2) ∧
      p.alpha = ((p.mean - low) / (high - low)) *
        ((p.mean - low) * (high - p.mean) / p.stdev ^ 2 - 1) ∧
      p.beta = p.alpha * (high - p.mean) / (p.mean - low) :=
  ⟨_, mkFairBetaPert_of_lt low mode high gamma h, rfl, rfl, rfl, rfl⟩

/-- Witness for C1 at `low=0, mode=5, high=10, gamma=4`. -/
theorem betaPert_derived_statistics_witness :
    (0:ℚ) < 10 ∧
    ∃ p : FairBetaPert, mkFairBetaPert 0 5 10 4 = .ok p ∧
      p.mean = (0 + 4 * 5 + 10) / (4 + 2) ∧
      p.stdev = (10 - 0) / (4 + 2) ∧
      p.alpha = ((p.mean - 0) / (10 - 0)) *
        ((p.mean - 0) * (10 - p.mean) / p.stdev ^ 2 - 1) ∧
      p.beta = p.alpha * (10 - p.mean) / (p.mean - 0) :=
  ⟨by norm_num, betaPert_derived_statistics 0 5 10 4 (by norm_num)⟩

/-- C5: construction raises the error with the exact message
`"low" value must be less than "high" value.` iff `high - low ≤ 0`; this is
the only validation, so with `low < high` construction succeeds for every
`mode` and `gamma` (including `mode` outside `[low, high]` and
non-positive `gamma`). -/
theorem betaPert_range_check (low mode high gamma : ℚ) :
    (mkFairBetaPert low mode high gamma =
        .error "\"low\" value must be less than \"high\" value." ↔
      high - low ≤ 0) ∧
    ((∃ p, mkFairBetaPert low mode high gamma = .ok p) ↔ low < high) := by
  by_cases h : high - low ≤ 0
  · constructor
    · simp [mkFairBetaPert, h]
    · constructor
      · rintro ⟨p, hp⟩
        simp [mkFairBetaPert, h] at hp
      · intro hl
        linarith
  · constructor
    · simp [mkFairBetaPert, h]
    · constructor
      · intro
        linarith [not_le.mp h]
      · intro hl
        exact ⟨_, mkFairBetaPert_of_lt low mode high gamma hl⟩

/-- C7: for `low=0, mode=5, high=10, gamma=4`, `mean = 5`, `stdev = 10/6`,
and `alpha` and `beta` are positive (hence finite in the exact model) and
equal to each other. -/
theorem betaPert_symmetric_case :
    ∃ p : FairBetaPert, mkFairBetaPert 0 5 10 4 = .ok p ∧
      p.mean = 5 ∧ p.stdev = 10 / 6 ∧
      0 < p.alpha ∧ 0 < p.beta ∧ p.alpha = p.beta := by
  refine ⟨_, mkFairBetaPert_of_lt 0 5 10 4 (by norm_num), ?_, ?_, ?_, ?_, ?_⟩ <;>
    norm_num [generate_mean, generate_stdev, generate_alpha, generate_beta]

/-- C10: under the preconditions `low < high`, `low ≤ mode ≤ high`,
`0 ≤ gamma`, every denominator used in the derivation (`gamma + 2`,
`high - low`, `stdev^2`, `mean - low`) is nonzero and `low < mean < high`:
no division by zero occurs. -/
theorem betaPert_no_division_by_zero (low mode high gamma : ℚ)
    (h1 : low < high) (h2 : low ≤ mode) (h3 : mode ≤ high) (h4 : 0 ≤ gamma) :
    ∃ p : FairBetaPert, mkFairBetaPert low mode high gamma = .ok p ∧
      gamma + 2 ≠ 0 ∧ high - low ≠ 0 ∧ p.stdev ^ 2 ≠ 0 ∧
      p.mean - low ≠ 0 ∧ low < p.mean ∧ p.mean < high := by
  have hd : (0:ℚ) < gamma + 2 := by linarith
  have hr : (0:ℚ) < high - low := by linarith
  have hmean_low : low < generate_mean low mode high gamma := by
    rw [generate_mean, lt_div_iff₀ hd]
    nlinarith
  have hmean_high : generate_mean low mode high gamma < high := by
    rw [generate_mean, div_lt_iff₀ hd]
    nlinarith
  have hstdev : generate_stdev low high gamma ≠ 0 :=
    div_ne_zero (ne_of_gt hr) (ne_of_gt hd)
  exact ⟨_, mkFairBetaPert_of_lt low mode high gamma h1, ne_of_gt hd,
    ne_of_gt hr, pow_ne_zero 2 hstdev,
    sub_ne_zero.mpr (ne_of_gt hmean_low), hmean_low, hmean_high⟩

/-- Witness for C10 at `low=0, mode=5, high=10, gamma=4`. -/
theorem betaPert_no_division_by_zero_witness :
    ((0:ℚ) < 10 ∧ (0:ℚ) ≤ 5 ∧ (5:ℚ) ≤ 10 ∧ (0:ℚ) ≤ 4) ∧
    ∃ p : FairBetaPert, mkFairBetaPert 0 5 10 4 = .ok p ∧
      (4:ℚ) + 2 ≠ 0 ∧ (10:ℚ) - 0 ≠ 0 ∧ p.stdev ^ 2 ≠ 0 ∧
      p.mean - 0 ≠ 0 ∧ 0 < p.mean ∧ p.mean < 10 :=
  ⟨by norm_num, betaPert_no_division_by_zero 0 5 10 4 (by norm_num)
    (by norm_num) (by norm_num) (by norm_num)⟩

/-- C8: on a distribution constructed with `low < high`, drawing variates
from a list of `count` unit Beta samples yields exactly `count` values,
every one within the closed interval `[low, high]`. -/
theorem random_variates_count_bounds (low mode high gamma : ℚ)
    (p : FairBetaPert) (count : ℕ) (draws : List ℚ)
    (hp : mkFairBetaPert low mode high gamma = .ok p)
    (hcount : draws.length = count)
    (hdraws : ∀ x ∈ draws, 0 ≤ x ∧ x ≤ 1) :
    (random_variates p draws).length = count ∧
      ∀ y ∈ random_variates p draws, low ≤ y ∧ y ≤ high := by
  have hlt : low < high := by
    by_contra hle
    push_neg at hle
    have : high - low ≤ 0 := by linarith
    simp [mkFairBetaPert, this] at hp
  rw [mkFairBetaPert_of_lt low mode high gamma hlt] at hp
  injection hp with hrec
  subst hrec
  refine ⟨by simp [random_variates, hcount], ?_⟩
  intro y hy
  simp only [random_variates, List.mem_map] at hy
  obtain ⟨x, hx, rfl⟩ := hy
  obtain ⟨hx0, hx1⟩ := hdraws x hx
  have hnn : 0 ≤ (high - low) * x := mul_nonneg (by linarith) hx0
  have hub : (high - low) * x ≤ (high - low) * 1 :=
    mul_le_mul_of_nonneg_left hx1 (by linarith)
  constructor
  · show low ≤ low + (high - low) * x
    linarith
  · show low + (high - low) * x ≤ high
    linarith

/-- Witness for C8: the concrete distribution for `low=0, mode=5, high=10,
gamma=4` with three unit draws `0, 1/2, 1`. -/
theorem random_variates_count_bounds_witness :
    mkFairBetaPert 0 5 10 4 = .ok ⟨0, 5, 10, 4, 10, 5, 5/3, 4, 4⟩ ∧
    ([0, 1/2, 1] : List ℚ).length = 3 ∧
    (∀ x ∈ ([0, 1/2, 1] : List ℚ), 0 ≤ x ∧ x ≤ 1) ∧
    ((random_variates ⟨0, 5, 10, 4, 10, 5, 5/3, 4, 4⟩ [0, 1/2, 1]).length = 3 ∧
      ∀ y ∈ random_variates ⟨0, 5, 10, 4, 10, 5, 5/3, 4, 4⟩ [0, 1/2, 1],
        (0:ℚ) ≤ y ∧ y ≤ 10) := by
  have hmk : mkFairBetaPert 0 5 10 4 = .ok ⟨0, 5, 10, 4, 10, 5, 5/3, 4, 4⟩ := by
    rw [mkFairBetaPert_of_lt 0 5 10 4 (by norm_num)]
    norm_num [generate_mean, generate_stdev, generate_alpha, generate_beta]
  have hdr : ∀ x ∈ ([0, 1/2, 1] : List ℚ), 0 ≤ x ∧ x ≤ 1 := by
    intro x hx
    fin_cases hx <;> norm_num
  exact ⟨hmk, rfl, hdr,
    random_variates_count_bounds 0 5 10 4 _ 3 _ hmk rfl hdr⟩
